import Mathlib

/- Verification of the WaveCatcher signal-computation and backtesting core
   (backend/app/logic/indicators.py, get_best_CD_interval.py,
   get_best_MC_interval.py, get_resonance_signal_CD.py, utils.py).

   Embedding conventions:
   * A price series is a function `ℕ → ℚ` obtained from a `List ℚ` of Close
     values via `closeOf`; all theorems restrict indices to the list length.
   * pandas NaN appearing in a boolean context is embedded as `false`,
     matching the code's `fillna(False)` handling and the fact that every
     comparison with NaN is False in pandas.
   * pandas NaN in a numeric series (from `shift`/`_compute_ref`) is
     embedded as `Option ℚ`, with `none` compared as False.
   * Python floats are embedded as exact rationals; `round(x, 2)` is
     embedded as round-half-to-even at two decimals (`round2`). -/

/-- Close series of a bar list: index access with default 0 beyond the end. -/
def closeOf (cs : List ℚ) : ℕ → ℚ := fun i => cs.getD i 0

/-- Exponential moving average `close.ewm(span=s, adjust=False).mean()`:
seed with the first value, then `e[i+1] = α·x[i+1] + (1-α)·e[i]` with
`α = 2/(s+1)` (indicators.py lines 16-19). -/
def emaF (span : ℕ) (c : ℕ → ℚ) : ℕ → ℚ
  | 0 => c 0
  | i + 1 =>
    (2 / ((span : ℚ) + 1)) * c (i + 1) + (1 - 2 / ((span : ℚ) + 1)) * emaF span c i

/-- MACD difference `diff = fast_ema(12) - slow_ema(26)` (indicators.py line 18). -/
def diffF (c : ℕ → ℚ) (i : ℕ) : ℚ := emaF 12 c i - emaF 26 c i

/-- Signal line `dea = diff.ewm(span=9, adjust=False).mean()` (indicators.py line 19). -/
def deaF (c : ℕ → ℚ) (i : ℕ) : ℚ := emaF 9 (diffF c) i

/-- Histogram `mcd = (diff - dea) * 2` (indicators.py line 20). -/
def mcdF (c : ℕ → ℚ) (i : ℕ) : ℚ := (diffF c i - deaF c i) * 2

/-- Cross event `cross_down = (mcd.shift(1) >= 0) & (mcd < 0)`; at bar 0 the
shifted value is NaN and `NaN >= 0` is False (indicators.py line 23). -/
def crossDown (c : ℕ → ℚ) : ℕ → Bool
  | 0 => false
  | i + 1 => decide (0 ≤ mcdF c i) && decide (mcdF c (i + 1) < 0)

/-- Cross event `cross_up = (mcd.shift(1) <= 0) & (mcd > 0)` (indicators.py line 24). -/
def crossUp (c : ℕ → ℚ) : ℕ → Bool
  | 0 => false
  | i + 1 => decide (mcdF c i ≤ 0) && decide (0 < mcdF c (i + 1))

/-- Index of the most recent bar `≤ i` where the event fired, if any
(helper for `_compute_barslast`, indicators.py lines 138-146). -/
def lastEventAt (ev : ℕ → Bool) : ℕ → Option ℕ
  | 0 => if ev 0 then some 0 else none
  | i + 1 => if ev (i + 1) then some (i + 1) else lastEventAt ev i

/-- Source `_compute_barslast`: bars since the most recent event, 0 if none seen yet
(indicators.py lines 138-146). -/
def barslast (ev : ℕ → Bool) (i : ℕ) : ℕ :=
  match lastEventAt ev i with
  | some j => i - j
  | none => 0

/-- Source `n1_safe = n1 + 1` where `n1 = barslast(cross_down)` (indicators.py lines 27, 31). -/
def n1safe (c : ℕ → ℚ) (i : ℕ) : ℕ := barslast (crossDown c) i + 1

/-- Source `mm1_safe = mm1 + 1` where `mm1 = barslast(cross_up)` (indicators.py lines 28, 32). -/
def mm1safe (c : ℕ → ℚ) (i : ℕ) : ℕ := barslast (crossUp c) i + 1

/-- Minimum of `f` over indices `lo..hi` (inclusive); the iteration shape of
`series.iloc[start:i+1].min()` in `_compute_llv` (indicators.py lines 148-157). -/
def windowMin (f : ℕ → ℚ) (lo hi : ℕ) : ℚ :=
  List.foldl (fun a k => min a (f k)) (f lo) (List.range' (lo + 1) (hi - lo))

/-- Maximum of `f` over indices `lo..hi` (inclusive); the iteration shape of
`series.iloc[start:i+1].max()` in `_compute_hhv` (indicators.py lines 159-171). -/
def windowMax (f : ℕ → ℚ) (lo hi : ℕ) : ℚ :=
  List.foldl (fun a k => max a (f k)) (f lo) (List.range' (lo + 1) (hi - lo))

/-- Source `cc1 = _compute_llv(close, n1_safe)`: lowest Close over the trailing
`n1_safe` bars; window start `max(0, i - period + 1)` is `i + 1 - period` in
truncated ℕ subtraction (indicators.py line 35, 148-157). -/
def cc1F (c : ℕ → ℚ) (i : ℕ) : ℚ := windowMin c (i + 1 - n1safe c i) i

/-- Source `cc2 = _compute_ref(cc1, mm1_safe)`: `cc1` looked back `mm1_safe` bars,
NaN (`none`) when the lag exceeds the index (indicators.py line 36, 173-181). -/
def cc2F (c : ℕ → ℚ) (i : ℕ) : Option ℚ :=
  if mm1safe c i ≤ i then some (cc1F c (i - mm1safe c i)) else none

/-- Source `cc3 = _compute_ref(cc2, mm1_safe)`; the looked-up value may itself be NaN
(indicators.py line 37). -/
def cc3F (c : ℕ → ℚ) (i : ℕ) : Option ℚ :=
  if mm1safe c i ≤ i then cc2F c (i - mm1safe c i) else none

/-- Source `difl1 = _compute_llv(diff, n1_safe)` (indicators.py line 40). -/
def difl1F (c : ℕ → ℚ) (i : ℕ) : ℚ := windowMin (diffF c) (i + 1 - n1safe c i) i

/-- Source `difl2 = _compute_ref(difl1, mm1_safe)` (indicators.py line 41). -/
def difl2F (c : ℕ → ℚ) (i : ℕ) : Option ℚ :=
  if mm1safe c i ≤ i then some (difl1F c (i - mm1safe c i)) else none

/-- Source `difl3 = _compute_ref(difl2, mm1_safe)` (indicators.py line 42). -/
def difl3F (c : ℕ → ℚ) (i : ℕ) : Option ℚ :=
  if mm1safe c i ≤ i then difl2F c (i - mm1safe c i) else none

/-- Comparison `a < b` where `b` may be NaN: False on NaN (pandas semantics). -/
def oltB (a : ℚ) (b : Option ℚ) : Bool :=
  match b with
  | some v => decide (a < v)
  | none => false

/-- Comparison `a > b` where `b` may be NaN: False on NaN (pandas semantics). -/
def ogtB (a : ℚ) (b : Option ℚ) : Bool :=
  match b with
  | some v => decide (v < a)
  | none => false

/-- Source `REF(MCD,1) < 0`, i.e. `mcd.shift(1) < 0`: False at bar 0 (NaN). -/
def mcdPrevNeg (c : ℕ → ℚ) : ℕ → Bool
  | 0 => false
  | i + 1 => decide (mcdF c i < 0)

/-- Source `REF(MCD,1) > 0`, i.e. `mcd.shift(1) > 0`: False at bar 0 (NaN). -/
def mcdPrevPos (c : ℕ → ℚ) : ℕ → Bool
  | 0 => false
  | i + 1 => decide (0 < mcdF c i)

/-- Condition A: `aaa = (cc1 < cc2) & (difl1 > difl2) & (mcd.shift(1) < 0) & (diff < 0)`
(indicators.py line 45). -/
def aaaF (c : ℕ → ℚ) (i : ℕ) : Bool :=
  oltB (cc1F c i) (cc2F c i) && ogtB (difl1F c i) (difl2F c i)
    && mcdPrevNeg c i && decide (diffF c i < 0)

/-- Condition B: `bbb = (cc1 < cc3) & (difl1 < difl2) & (difl1 > difl3)
& (mcd.shift(1) < 0) & (diff < 0)` (indicators.py line 46). -/
def bbbF (c : ℕ → ℚ) (i : ℕ) : Bool :=
  oltB (cc1F c i) (cc3F c i) && oltB (difl1F c i) (difl2F c i)
    && ogtB (difl1F c i) (difl3F c i) && mcdPrevNeg c i && decide (diffF c i < 0)

/-- Raw CD trigger `ccc = aaa | bbb` (indicators.py line 47). -/
def cccF (c : ℕ → ℚ) (i : ℕ) : Bool := aaaF c i || bbbF c i

/-- Confirmation `jjj = ccc.shift(1) & (abs(diff.shift(1)) >= abs(diff) * 1.01)`;
False at bar 0 since the shifted operands are NaN (indicators.py line 48). -/
def jjjF (c : ℕ → ℚ) : ℕ → Bool
  | 0 => false
  | i + 1 => cccF c i && decide (|diffF c (i + 1)| * (101 / 100) ≤ |diffF c i|)

/-- Shift of a boolean series by one bar with `fill_value=False`. -/
def shiftB (g : ℕ → Bool) : ℕ → Bool
  | 0 => false
  | i + 1 => g i

/-- Edge trigger `dxdx = jjj & ~jjj.shift(1, fill_value=False).fillna(False)`
(indicators.py line 49). -/
def dxdxF (c : ℕ → ℚ) (i : ℕ) : Bool := jjjF c i && !shiftB (jjjF c) i

/-- CD (buy) signal `compute_cd_indicator` with the source's warmup value 0
(indicators.py lines 4-56): the edge-triggered confirmed divergence signal. -/
def cdSig (c : ℕ → ℚ) (i : ℕ) : Bool := dxdxF c i

/-- Source `ch1 = _compute_hhv(close, mm1_safe)`: highest Close over the trailing
`mm1_safe` bars (indicators.py line 93). -/
def ch1F (c : ℕ → ℚ) (i : ℕ) : ℚ := windowMax c (i + 1 - mm1safe c i) i

/-- Source `ch2 = _compute_ref(ch1, n1_safe)` (indicators.py line 94). -/
def ch2F (c : ℕ → ℚ) (i : ℕ) : Option ℚ :=
  if n1safe c i ≤ i then some (ch1F c (i - n1safe c i)) else none

/-- Source `ch3 = _compute_ref(ch2, n1_safe)` (indicators.py line 95). -/
def ch3F (c : ℕ → ℚ) (i : ℕ) : Option ℚ :=
  if n1safe c i ≤ i then ch2F c (i - n1safe c i) else none

/-- Source `difh1 = _compute_hhv(diff, mm1_safe)` (indicators.py line 98). -/
def difh1F (c : ℕ → ℚ) (i : ℕ) : ℚ := windowMax (diffF c) (i + 1 - mm1safe c i) i

/-- Source `difh2 = _compute_ref(difh1, n1_safe)` (indicators.py line 99). -/
def difh2F (c : ℕ → ℚ) (i : ℕ) : Option ℚ :=
  if n1safe c i ≤ i then some (difh1F c (i - n1safe c i)) else none

/-- Source `difh3 = _compute_ref(difh2, n1_safe)` (indicators.py line 100). -/
def difh3F (c : ℕ → ℚ) (i : ℕ) : Option ℚ :=
  if n1safe c i ≤ i then difh2F c (i - n1safe c i) else none

/-- Source `zjdbl = (ch1 > ch2) & (difh1 < difh2) & (mcd.shift(1) > 0) & (diff > 0)`
(indicators.py line 104). -/
def zjdblF (c : ℕ → ℚ) (i : ℕ) : Bool :=
  ogtB (ch1F c i) (ch2F c i) && oltB (difh1F c i) (difh2F c i)
    && mcdPrevPos c i && decide (0 < diffF c i)

/-- Source `gxdbl = (ch1 > ch3) & (difh1 > difh2) & (difh1 < difh3) & (mcd.shift(1) > 0)
& (diff > 0)` (indicators.py line 107). -/
def gxdblF (c : ℕ → ℚ) (i : ℕ) : Bool :=
  ogtB (ch1F c i) (ch3F c i) && ogtB (difh1F c i) (difh2F c i)
    && oltB (difh1F c i) (difh3F c i) && mcdPrevPos c i && decide (0 < diffF c i)

/-- Source `dbbl = (zjdbl | gxdbl) & (diff > 0)` (indicators.py line 110). -/
def dbblF (c : ℕ → ℚ) (i : ℕ) : Bool := (zjdblF c i || gxdblF c i) && decide (0 < diffF c i)

/-- Confirmation `dbjg = dbbl.shift(1) & (diff.shift(1) >= diff * 1.01)` —
note: unlike the CD confirmation, no absolute values (indicators.py line 113). -/
def dbjgF (c : ℕ → ℚ) : ℕ → Bool
  | 0 => false
  | i + 1 => dbblF c i && decide (diffF c (i + 1) * (101 / 100) ≤ diffF c i)

/-- Edge trigger `dbjgxc = dbjg & ~dbjg.shift(1, fill_value=False).fillna(False)`
(indicators.py line 116). -/
def dbjgxcF (c : ℕ → ℚ) (i : ℕ) : Bool := dbjgF c i && !shiftB (dbjgF c) i

/-- MC (sell) signal `compute_mc_indicator` with the source's warmup value 0
(indicators.py lines 58-123). -/
def mcSig (c : ℕ → ℚ) (i : ℕ) : Bool := dbjgxcF c i

/-- Concrete Close list on which the MC signal differs from the mirrored
(negated-Close) CD signal. -/
def cexClose : List ℚ := [5, 7, 2, 8, 4, 1]

/-- Python `round(x, 2)` first step: round half to even to the nearest integer. -/
def rhe (q : ℚ) : ℤ :=
  if q - ⌊q⌋ < 1 / 2 then ⌊q⌋
  else if 1 / 2 < q - ⌊q⌋ then ⌊q⌋ + 1
  else if ⌊q⌋ % 2 = 0 then ⌊q⌋ else ⌊q⌋ + 1

/-- Python `round(x, 2)`: round half to even at two decimal places.  Floats are
embedded as exact rationals, so this is the idealised (exact) rounding. -/
def round2 (q : ℚ) : ℚ := ((rhe (q * 100) : ℤ) : ℚ) / 100

/- Section:    Interval Backtester: `calculate_returns` and the per-offset aggregation
   of `evaluate_interval` (get_best_CD_interval.py lines 141-216, 449-474;
   get_best_MC_interval.py lines 140-215, 448-477; the two files' loops are
   structurally identical, differing only in the success-rate comparison).
   The default `periods = [0] + list(range(1, 101))`, so `max(periods) = 100`.
   Volumes and the cross-signal info fields attached to each row do not
   affect the return columns and are projected away. ---------------------- -/

/-- True positions of the signal series (`data.index[signals.fillna(False)]`,
NaN treated as False), in index order. -/
def trueIdxs (sig : List Bool) : List ℕ :=
  (List.range sig.length).filter (fun i => sig.getD i false)

/-- Source `if len(signal_dates) > max_signals: signal_dates = signal_dates[-7:]`
(get_best_CD_interval.py lines 162-163, MAX_SIGNALS_THRESHOLD = 7). -/
def lastSeven (xs : List ℕ) : List ℕ :=
  if 7 < xs.length then xs.drop (xs.length - 7) else xs

/-- Occurrence indices actually evaluated by `calculate_returns`: the most
recent 7 signal positions, minus those with `idx + max(periods) >= len(data)`
(get_best_CD_interval.py lines 159-173). -/
def retainedIdxs (n : ℕ) (sig : List Bool) : List ℕ :=
  (lastSeven (trueIdxs sig)).filter (fun i => i + 100 < n)

/-- Forward return of an occurrence at offset `p`:
`round((Close[idx+p] - Close[idx]) / Close[idx] * 100, 2)` when `idx+p` is in
range, else NaN (get_best_CD_interval.py lines 180-188). -/
def returnAt (close : List ℚ) (idx p : ℕ) : Option ℚ :=
  if idx + p < close.length then
    some (round2 ((close.getD (idx + p) 0 - close.getD idx 0) / close.getD idx 0 * 100))
  else none

/-- Rows of the `calculate_returns` result: one row per surviving occurrence
(the `continue` in the loop skips occurrences too close to the end), carrying
the per-offset return map (get_best_CD_interval.py lines 168-216). -/
def calcRows (close : List ℚ) (sig : List Bool) : List (ℕ × (ℕ → Option ℚ)) :=
  (lastSeven (trueIdxs sig)).filterMap (fun i =>
    if i + 100 < close.length then some (i, fun p => returnAt close i p) else none)

/-- Column `return_p` of the result with NaN dropped
(`returns_df[f'return_{p}'].dropna()`). -/
def periodReturns (close : List ℚ) (sig : List Bool) (p : ℕ) : List ℚ :=
  (calcRows close sig).filterMap (fun r => r.2 p)

/-- Source `test_count_p = len(individual_returns)` (get_best_CD_interval.py line 457). -/
def testCount (close : List ℚ) (sig : List Bool) (p : ℕ) : ℕ :=
  (periodReturns close sig p).length

/-- CD `success_rate_p = round(float((returns > 0).mean() * 100), 2)`
(get_best_CD_interval.py line 458); the boolean mean is the indicator sum over
the count.  With no rows `evaluate_interval` takes the zero-filled branch
instead, so the empty case here is unreachable in context. -/
def successRateCD (close : List ℚ) (sig : List Bool) (p : ℕ) : ℚ :=
  round2 (((periodReturns close sig p).map (fun r => if 0 < r then (1 : ℚ) else 0)).sum
    / ((periodReturns close sig p).length : ℚ) * 100)

/-- MC `success_rate_p = round(float((period_returns < 0).mean() * 100), 2)` when
`len(period_returns) > 0`, else 0 (get_best_MC_interval.py lines 453-477). -/
def successRateMC (close : List ℚ) (sig : List Bool) (p : ℕ) : ℚ :=
  if 0 < (periodReturns close sig p).length then
    round2 (((periodReturns close sig p).map (fun r => if r < 0 then (1 : ℚ) else 0)).sum
      / ((periodReturns close sig p).length : ℚ) * 100)
  else 0

/- Section:    Cross-Signal Evaluator: the local-extremum check of
   `evaluate_mc_at_top_price` (get_best_CD_interval.py lines 96-115) and
   `evaluate_cd_at_bottom_price` (get_best_MC_interval.py lines 96-114). -/

/-- One OHLC bar restricted to the fields the local-extremum check reads. -/
structure Bar where
  high : ℚ
  low : ℚ
  close : ℚ
deriving DecidableEq

/-- Source `window_size = max(3, min(10, total_length // 20))`
(get_best_CD_interval.py line 100). -/
def windowSizeB (n : ℕ) : ℕ := max 3 (min 10 (n / 20))

/-- Index window `window_start = max(0, idx - ws)` to
`window_end = min(len(data), idx + ws + 1)` (exclusive), as a list of indices
(get_best_CD_interval.py lines 102-104). -/
def localWindow (n i : ℕ) : List ℕ :=
  List.range' (i - windowSizeB n) (min n (i + windowSizeB n + 1) - (i - windowSizeB n))

/-- Source `mc_rank = sum(mc_price >= h for h in window_highs) / len(window_highs)`
(get_best_CD_interval.py line 109). -/
def mcRank (data : List Bar) (i : ℕ) (price : ℚ) : ℚ :=
  (((localWindow data.length i).filter
      (fun k => (data.getD k ⟨0, 0, 0⟩).high ≤ price)).length : ℚ)
    / ((localWindow data.length i).length : ℚ)

/-- Source `is_local_maximum`: the rank test guarded by
`if not window_data.empty and len(window_data) > 1`, else False
(get_best_CD_interval.py lines 106-115). -/
def isLocalMaximum (data : List Bar) (i : ℕ) (price : ℚ) : Bool :=
  if 1 < (localWindow data.length i).length then
    decide ((7 : ℚ) / 10 ≤ mcRank data i price)
  else false

/-- Source `cd_rank = sum(cd_price <= l for l in window_lows) / len(window_lows)`
(get_best_MC_interval.py line 108). -/
def cdRank (data : List Bar) (i : ℕ) (price : ℚ) : ℚ :=
  (((localWindow data.length i).filter
      (fun k => price ≤ (data.getD k ⟨0, 0, 0⟩).low)).length : ℚ)
    / ((localWindow data.length i).length : ℚ)

/-- Source `is_local_minimum` with the same emptiness/length guard
(get_best_MC_interval.py lines 105-113). -/
def isLocalMinimum (data : List Bar) (i : ℕ) (price : ℚ) : Bool :=
  if 1 < (localWindow data.length i).length then
    decide ((7 : ℚ) / 10 ≤ cdRank data i price)
  else false

/- Section:    Trend-confirmation (NX) flags. -/

/-- EMA of a Close list evaluated at the last bar (`.iloc[-1]`). -/
def emaLast (span : ℕ) (cs : List ℚ) : ℚ := emaF span (closeOf cs) (cs.length - 1)

/-- Interval Backtester current NX value: computed only when
`len(df_nx) >= 89`, else the field keeps its initialised `None`
(get_best_CD_interval.py lines 588-599; same guard at lines 339-348 and, for
the signal-date flags, line 557). -/
def nxCurrentBacktester (cs : List ℚ) : Option Bool :=
  if 89 ≤ cs.length then some (decide (emaLast 89 cs < emaLast 24 cs)) else none

/-- Resonance Aggregator current NX value, `get_nx_value` inside
`calculate_current_nx_values` (utils.py lines 263-284): computed for any
non-empty series — there is no minimum-length guard — and `None` only when the
interval is absent or empty. -/
def nxCurrentResonance (d : Option (List ℚ)) : Option Bool :=
  match d with
  | some cs =>
    if cs.length ≠ 0 then some (decide (emaLast 89 cs < emaLast 24 cs)) else none
  | none => none

/- Section:    Shape of the zero-signal-count `evaluate_interval` record
   (get_best_CD_interval.py lines 287-350) versus the per-offset keys of the
   populated record (lines 469-474), embedded as ordered key lists; values
   are irrelevant to C8, which is about field presence. -/

/-- Source `periods = [0] + list(range(1, 101))` (get_best_CD_interval.py line 303). -/
def periodsList : List ℕ := 0 :: List.range' 1 100

/-- Per-offset keys written by the zero-signal branch
(get_best_CD_interval.py lines 304-309): note `avg_volume_{p}` is absent. -/
def perOffsetZeroKeys (p : ℕ) : List String :=
  ["test_count_" ++ toString p, "success_rate_" ++ toString p,
   "avg_return_" ++ toString p, "returns_" ++ toString p,
   "volumes_" ++ toString p]

/-- Per-offset keys written by the populated branch
(get_best_CD_interval.py lines 469-474). -/
def perOffsetPopulatedKeys (p : ℕ) : List String :=
  ["test_count_" ++ toString p, "success_rate_" ++ toString p,
   "avg_return_" ++ toString p, "avg_volume_" ++ toString p,
   "returns_" ++ toString p, "volumes_" ++ toString p]

/-- Keys of the zero-signal record written before the per-period loop
(get_best_CD_interval.py lines 288-301). -/
def zeroHeadKeys : List String :=
  ["ticker", "interval", "signal_count", "latest_signal", "latest_signal_price",
   "current_time", "current_price", "current_period", "max_return", "min_return",
   "price_history", "volume_history"]

/-- Keys of the zero-signal record written after the per-period loop
(get_best_CD_interval.py lines 312-336). -/
def zeroTailKeys : List String :=
  ["mc_signals_before_cd", "mc_at_top_price_count", "mc_at_top_price_rate",
   "avg_mc_price_percentile", "avg_mc_decline_after", "avg_mc_criteria_met",
   "latest_mc_date", "latest_mc_price", "latest_mc_at_top_price",
   "latest_mc_price_percentile", "latest_mc_decline_after",
   "latest_mc_criteria_met",
   "nx_1d_signal", "nx_30m_signal", "nx_1h_signal", "nx_5m_signal",
   "nx_1d", "nx_30m", "nx_1h", "nx_5m", "nx_4h"]

/-- Complete ordered key list of the zero-signal-count record
(get_best_CD_interval.py lines 287-350). -/
def zeroSignalKeys : List String :=
  zeroHeadKeys ++ periodsList.flatMap perOffsetZeroKeys ++ zeroTailKeys

/- Section:    Resonance buy-signal rolling pattern (get_resonance_signal_CD.py lines
   64 and 122). -/

/-- Source `breakthrough.rolling(10).apply(lambda x: x.iloc[0] if x.any() else False)`:
with fewer than 10 observations the rolling result is NaN (`none`); otherwise
the lambda returns the first value of the window if any value is truthy, else
False. -/
def rollingFirstIfAny (b : List Bool) (i : ℕ) : Option Bool :=
  if i + 1 < 10 then none
  else
    some (if ((List.range 10).map (fun k => b.getD (i - 9 + k) false)).any id then
      ((List.range 10).map (fun k => b.getD (i - 9 + k) false)).headD false
    else false)

/-- Source `breakthrough.shift(9)`: the value of the series 9 bars earlier, NaN for
the first 9 indices (the spec-side form whose equivalence C7 asserts). -/
def shiftNine (b : List Bool) (i : ℕ) : Option Bool :=
  if i < 9 then none else some (b.getD (i - 9) false)

/- Section:    Resonance Aggregator candidate recording (get_resonance_signal_CD.py,
   identify_1234 lines 150-227 and identify_5230 lines 315-392: the two
   loops are identical up to the interval family; the subsequent
   price/NX-annotation and data-availability filtering stages are outside
   C5's scope).  Signal datetimes are embedded as absolute minutes; the
   date component of a datetime is its day number `sdate / 1440`.  Daily
   bar indexes are embedded as sorted lists of day numbers (pandas
   DatetimeIndex of midnight timestamps). -/

/-- One row of the flat per-occurrence signal record list fed to
`identify_1234`/`identify_5230` (the fields the recording loop reads). -/
structure SigRec where
  ticker : String
  interval : String
  sdate : ℕ
deriving DecidableEq

/-- Date component of a signal datetime (`df['signal_date'].dt.date`). -/
def dayOf (r : SigRec) : ℕ := r.sdate / 1440

/-- Source `get_trading_day_window_end(start_date, ticker, all_ticker_data, days=3)`
(utils.py lines 5-62): fallback `start + 3` calendar days when daily data is
missing/empty or the start is past the index; otherwise advance to the entry
2 trading positions after the left insertion point of the start date
(`searchsorted` on a sorted index = count of strictly smaller entries),
clamped to the last available trading date. -/
def windowEndDay (dd : Option (List ℕ)) (d : ℕ) : ℕ :=
  match dd with
  | none => d + 3
  | some days =>
    if days.length = 0 then d + 3
    else
      if days.length ≤ (days.filter (fun x => x < d)).length then d + 3
      else if (days.filter (fun x => x < d)).length + 2 < days.length then
        days.getD ((days.filter (fun x => x < d)).length + 2) 0
      else days.getLastD 0

/-- Source `df = df[df["interval"].isin(required_intervals)]`
(get_resonance_signal_CD.py line 182). -/
def famFiltered (fam : List String) (recs : List SigRec) : List SigRec :=
  recs.filter (fun r => fam.contains r.interval)

/-- Source `unique_dates = sorted(df['date'].unique())` (get_resonance_signal_CD.py
line 193). -/
def uniqueDays (recs : List SigRec) : List ℕ :=
  List.insertionSort (· ≤ ·) (recs.map dayOf).dedup

/-- Broad prefilter `df[(df['date'] >= date) & (df['date'] < date + 10 days)]`
(get_resonance_signal_CD.py lines 198-200). -/
def broadWindow (recs : List SigRec) (d : ℕ) : List SigRec :=
  recs.filter (fun r => decide (d ≤ dayOf r) && decide (dayOf r < d + 10))

/-- First-appearance deduplication with an accumulator of already-seen
values. -/
def firstAppearAux (seen : List String) : List String → List String
  | [] => []
  | x :: xs =>
    if seen.contains x then firstAppearAux seen xs
    else x :: firstAppearAux (x :: seen) xs

/-- First-appearance deduplication, the semantics of pandas `.unique()`. -/
def firstAppear (l : List String) : List String := firstAppearAux [] l

/-- Source `window_data_broad['ticker'].unique()` (get_resonance_signal_CD.py line 203). -/
def tickersOf (recs : List SigRec) : List String := firstAppear (recs.map SigRec.ticker)

/-- Source `ticker_data`: the broad-window rows of one ticker further restricted by
`date < precise_end_date + 1 day`, i.e. day ≤ precise end
(get_resonance_signal_CD.py lines 207-208). -/
def tickerWindowData (bw : List SigRec) (t : String) (pe : ℕ) : List SigRec :=
  bw.filter (fun r => decide (r.ticker = t) && decide (dayOf r < pe + 1))

/-- Source `unique_intervals.intersection(required_intervals)` as a duplicate-free
list (get_resonance_signal_CD.py lines 210-212). -/
def distinctFamIntervals (fam : List String) (rs : List SigRec) : List String :=
  (firstAppear (rs.map SigRec.interval)).filter (fun s => fam.contains s)

/-- Source `ticker_data['signal_date'].max()` as minutes (0 on the empty list, which
the recording branch never reaches). -/
def maxSDate (rs : List SigRec) : ℕ := (rs.map SigRec.sdate).foldl max 0

/-- Source `most_recent_signal_date = ticker_data['signal_date'].max().date()`
(get_resonance_signal_CD.py line 215). -/
def maxSigDay (rs : List SigRec) : ℕ := maxSDate rs / 1440

/-- A recorded breakout candidate, projected to the claim-relevant fields of
the appended row `[ticker, most_recent_signal_date, intervals_str,
latest_signal_price]` (get_resonance_signal_CD.py line 223). -/
structure Cand where
  ticker : String
  date : ℕ
deriving DecidableEq

/-- Loop state: `processed_combinations` and `breakout_candidates`
(get_resonance_signal_CD.py lines 186-187). -/
structure IdSt where
  processed : List (String × ℕ)
  out : List Cand

/-- The code's per-ticker window data at day `d`: broad prefilter then the
precise-end cutoff (the window the recording decision actually uses). -/
def codeWindowData (fam : List String) (recs0 : List SigRec)
    (ad : List (String × List ℕ)) (d : ℕ) (t : String) : List SigRec :=
  tickerWindowData (broadWindow (famFiltered fam recs0) d) t
    (windowEndDay (ad.lookup t) d)

/-- Body of the inner ticker loop (get_resonance_signal_CD.py lines 203-223):
qualify on ≥3 distinct family intervals, then record unless the
`(ticker, most_recent_signal_date)` combination was already processed. -/
def stepTicker (fam : List String) (ad : List (String × List ℕ))
    (bw : List SigRec) (d : ℕ) (st : IdSt) (t : String) : IdSt :=
  if 3 ≤ (distinctFamIntervals fam
      (tickerWindowData bw t (windowEndDay (ad.lookup t) d))).length then
    if st.processed.contains
        (t, maxSigDay (tickerWindowData bw t (windowEndDay (ad.lookup t) d))) then st
    else ⟨(t, maxSigDay (tickerWindowData bw t (windowEndDay (ad.lookup t) d)))
        :: st.processed,
      st.out ++ [⟨t, maxSigDay (tickerWindowData bw t (windowEndDay (ad.lookup t) d))⟩]⟩
  else st

/-- Body of the outer date loop (get_resonance_signal_CD.py lines 195-223). -/
def stepDay (fam : List String) (ad : List (String × List ℕ))
    (recs : List SigRec) (st : IdSt) (d : ℕ) : IdSt :=
  (tickersOf (broadWindow recs d)).foldl
    (stepTicker fam ad (broadWindow recs d) d) st

/-- The candidate list built by `identify_1234`/`identify_5230`
(`breakout_candidates` after both loops; `fam` is the required interval
family). -/
def identifyCands (fam : List String) (recs0 : List SigRec)
    (ad : List (String × List ℕ)) : List Cand :=
  ((uniqueDays (famFiltered fam recs0)).foldl
    (stepDay fam ad (famFiltered fam recs0)) ⟨[], []⟩).out

/-- Modelled from the claim's words (C5): the distinct confirming family
intervals of ticker `t` in the uncapped window `[D, precise window end]` —
no 10-day broad prefilter, unlike `codeWindowData`. -/
def claimWindowIntervals (fam : List String) (recs0 : List SigRec) (t : String)
    (d pe : ℕ) : List String :=
  distinctFamIntervals fam ((famFiltered fam recs0).filter
    (fun r => decide (r.ticker = t) && decide (d ≤ dayOf r) && decide (dayOf r ≤ pe)))

/- Section:    Concrete inputs for witnesses and counterexamples. -/

/-- Monotonically rising 3-bar Close series (C2 witness input). -/
def riseClose3 : List ℚ := [1, 2, 4]

/-- Monotonically declining Close series, 0.5% of the entry per bar. -/
def declClose : List ℚ := (List.range 101).map (fun k => 200 - (k : ℚ))

/-- Monotonically rising Close series, 0.5% of the entry per bar. -/
def riseClose101 : List ℚ := (List.range 101).map (fun k => 200 + (k : ℚ))

/-- Signal series with a single occurrence at index 0. -/
def sigAtZero : List Bool := true :: List.replicate 100 false

/-- One-bar sequence whose High equals its Close (C9 counterexample input). -/
def oneBar : List Bar := [⟨5, 5, 5⟩]

/-- Two-bar Close series (C6 counterexample input). -/
def twoBars : List ℚ := [1, 2]

/-- The 1h/2h/3h/4h interval family of `identify_1234`. -/
def fam1234 : List String := ["1h", "2h", "3h", "4h"]

/-- Signal records of one ticker at days 0, 12 and 13 in three intervals
(C5 counterexample input). -/
def cexRecs : List SigRec := [⟨"T", "1h", 0⟩, ⟨"T", "2h", 17280⟩, ⟨"T", "3h", 18720⟩]

/-- Daily bar index of ticker T with large gaps: trading days 0, 20 and 40
(C5 counterexample input). -/
def cexDaily : List (String × List ℕ) := [("T", [0, 20, 40])]

/-- Breakthrough series used by the C7 illustration. -/
def bexSeries : List Bool :=
  [false, true, false, false, false, false, false, false, false, false, false, true]

/- Section: theorems. -/

/-- C1: the CD signal at bar `i ≥ 1` of a bar sequence holds iff the raw
divergence trigger (condition A or B) held at bar `i-1`, `|diff|` at `i-1`
was at least 1.01 times `|diff|` at `i`, and the confirmation predicate `jjj`
was false at bar `i-1` — so the signal fires only on the first bar of a
contiguous confirmation run. -/
theorem cd_signal_characterization (cs : List ℚ) (i : ℕ) (h1 : 1 ≤ i)
    (h2 : i < cs.length) :
    cdSig (closeOf cs) i =
      (cccF (closeOf cs) (i - 1)
        && decide (|diffF (closeOf cs) i| * (101 / 100) ≤ |diffF (closeOf cs) (i - 1)|)
        && !jjjF (closeOf cs) (i - 1)) := by
  obtain ⟨j, rfl⟩ : ∃ j, i = j + 1 := ⟨i - 1, (Nat.succ_pred_eq_of_pos h1).symm⟩
  simp only [cdSig, dxdxF, jjjF, shiftB, Nat.add_sub_cancel, Bool.and_assoc]

/-- C1 witness: the characterization evaluated at a concrete series and bar. -/
theorem cd_signal_characterization_witness :
    cdSig (closeOf cexClose) 5 =
      (cccF (closeOf cexClose) 4
        && decide (|diffF (closeOf cexClose) 5| * (101 / 100) ≤ |diffF (closeOf cexClose) 4|)
        && !jjjF (closeOf cexClose) 4) :=
  cd_signal_characterization cexClose 5 (by decide) (by decide)

/-- Negating the input negates every EMA value (EMA is linear). -/
theorem emaF_neg (span : ℕ) (f : ℕ → ℚ) : ∀ i, emaF span (fun k => -f k) i = -emaF span f i
  | 0 => rfl
  | i + 1 => by
    simp only [emaF, emaF_neg span f i]
    ring

/-- Negating Close negates the MACD diff. -/
theorem diffF_neg (c : ℕ → ℚ) (i : ℕ) : diffF (fun k => -c k) i = -diffF c i := by
  simp only [diffF, emaF_neg]
  ring

/-- Negating Close negates the signal line. -/
theorem deaF_neg (c : ℕ → ℚ) (i : ℕ) : deaF (fun k => -c k) i = -deaF c i := by
  unfold deaF
  rw [show (diffF fun k => -c k) = (fun k => -diffF c k) from funext (diffF_neg c)]
  exact emaF_neg 9 (diffF c) i

/-- Negating Close negates the MACD histogram. -/
theorem mcdF_neg (c : ℕ → ℚ) (i : ℕ) : mcdF (fun k => -c k) i = -mcdF c i := by
  simp only [mcdF, diffF_neg, deaF_neg]
  ring

/-- On the negated series, down-crosses become up-crosses. -/
theorem crossDown_neg (c : ℕ → ℚ) : crossDown (fun k => -c k) = crossUp c := by
  funext i
  cases i with
  | zero => rfl
  | succ j =>
    simp only [crossDown, crossUp, mcdF_neg]
    rw [decide_eq_decide.mpr neg_nonneg, decide_eq_decide.mpr neg_neg_iff_pos]

/-- On the negated series, up-crosses become down-crosses. -/
theorem crossUp_neg (c : ℕ → ℚ) : crossUp (fun k => -c k) = crossDown c := by
  funext i
  cases i with
  | zero => rfl
  | succ j =>
    simp only [crossDown, crossUp, mcdF_neg]
    rw [decide_eq_decide.mpr neg_nonpos, decide_eq_decide.mpr neg_pos]

/-- On the negated series the two lookback lengths swap. -/
theorem n1safe_neg (c : ℕ → ℚ) (i : ℕ) : n1safe (fun k => -c k) i = mm1safe c i := by
  unfold n1safe mm1safe barslast
  rw [crossDown_neg]

/-- On the negated series the two lookback lengths swap (other direction). -/
theorem mm1safe_neg (c : ℕ → ℚ) (i : ℕ) : mm1safe (fun k => -c k) i = n1safe c i := by
  unfold n1safe mm1safe barslast
  rw [crossUp_neg]

/-- Folded minimum of a negated function is the negated folded maximum. -/
theorem foldl_min_neg (f : ℕ → ℚ) (l : List ℕ) :
    ∀ a, List.foldl (fun b k => min b (-f k)) (-a) l
      = -List.foldl (fun b k => max b (f k)) a l := by
  induction l with
  | nil => intro a; simp
  | cons x xs ih =>
    intro a
    have h : min (-a) (-f x) = -max a (f x) := min_neg_neg a (f x)
    simp only [List.foldl_cons, h]
    exact ih (max a (f x))

/-- Window minimum of a negated function is the negated window maximum. -/
theorem windowMin_neg (f : ℕ → ℚ) (lo hi : ℕ) :
    windowMin (fun k => -f k) lo hi = -windowMax f lo hi := by
  unfold windowMin windowMax
  exact foldl_min_neg f _ (f lo)

/-- Source `cc1` of the negated series is the negated `ch1`. -/
theorem cc1F_neg (c : ℕ → ℚ) (i : ℕ) : cc1F (fun k => -c k) i = -ch1F c i := by
  unfold cc1F ch1F
  rw [n1safe_neg, windowMin_neg]

/-- Source `difl1` of the negated series is the negated `difh1`. -/
theorem difl1F_neg (c : ℕ → ℚ) (i : ℕ) : difl1F (fun k => -c k) i = -difh1F c i := by
  unfold difl1F difh1F
  rw [n1safe_neg,
    show (diffF fun k => -c k) = (fun k => -diffF c k) from funext (diffF_neg c),
    windowMin_neg]

/-- Source `cc2` of the negated series is the negated `ch2`. -/
theorem cc2F_neg (c : ℕ → ℚ) (i : ℕ) :
    cc2F (fun k => -c k) i = (ch2F c i).map (fun x => -x) := by
  unfold cc2F ch2F
  rw [mm1safe_neg]
  split
  · rw [cc1F_neg]; rfl
  · rfl

/-- Source `cc3` of the negated series is the negated `ch3`. -/
theorem cc3F_neg (c : ℕ → ℚ) (i : ℕ) :
    cc3F (fun k => -c k) i = (ch3F c i).map (fun x => -x) := by
  unfold cc3F ch3F
  rw [mm1safe_neg]
  split
  · rw [cc2F_neg]
  · rfl

/-- Source `difl2` of the negated series is the negated `difh2`. -/
theorem difl2F_neg (c : ℕ → ℚ) (i : ℕ) :
    difl2F (fun k => -c k) i = (difh2F c i).map (fun x => -x) := by
  unfold difl2F difh2F
  rw [mm1safe_neg]
  split
  · rw [difl1F_neg]; rfl
  · rfl

/-- Source `difl3` of the negated series is the negated `difh3`. -/
theorem difl3F_neg (c : ℕ → ℚ) (i : ℕ) :
    difl3F (fun k => -c k) i = (difh3F c i).map (fun x => -x) := by
  unfold difl3F difh3F
  rw [mm1safe_neg]
  split
  · rw [difl2F_neg]
  · rfl

/-- NaN-aware `<` flips to `>` under negation of both sides. -/
theorem oltB_neg (a : ℚ) (b : Option ℚ) :
    oltB (-a) (b.map (fun x => -x)) = ogtB a b := by
  cases b with
  | none => rfl
  | some v =>
    simp only [oltB, ogtB, Option.map_some]
    exact decide_eq_decide.mpr neg_lt_neg_iff

/-- NaN-aware `>` flips to `<` under negation of both sides. -/
theorem ogtB_neg (a : ℚ) (b : Option ℚ) :
    ogtB (-a) (b.map (fun x => -x)) = oltB a b := by
  cases b with
  | none => rfl
  | some v =>
    simp only [oltB, ogtB, Option.map_some]
    exact decide_eq_decide.mpr neg_lt_neg_iff

/-- Previous-bar histogram sign test flips under negation. -/
theorem mcdPrevNeg_neg (c : ℕ → ℚ) (i : ℕ) :
    mcdPrevNeg (fun k => -c k) i = mcdPrevPos c i := by
  cases i with
  | zero => rfl
  | succ j =>
    simp only [mcdPrevNeg, mcdPrevPos, mcdF_neg]
    exact decide_eq_decide.mpr neg_neg_iff_pos

/-- Condition A on the negated series is the MC condition `zjdbl`. -/
theorem aaaF_neg (c : ℕ → ℚ) (i : ℕ) : aaaF (fun k => -c k) i = zjdblF c i := by
  unfold aaaF zjdblF
  rw [cc1F_neg, cc2F_neg, oltB_neg, difl1F_neg, difl2F_neg, ogtB_neg,
    mcdPrevNeg_neg, diffF_neg, decide_eq_decide.mpr neg_neg_iff_pos]

/-- Condition B on the negated series is the MC condition `gxdbl`. -/
theorem bbbF_neg (c : ℕ → ℚ) (i : ℕ) : bbbF (fun k => -c k) i = gxdblF c i := by
  unfold bbbF gxdblF
  rw [cc1F_neg, cc3F_neg, oltB_neg, difl1F_neg, difl2F_neg, oltB_neg,
    difl3F_neg, ogtB_neg, mcdPrevNeg_neg, diffF_neg,
    decide_eq_decide.mpr neg_neg_iff_pos]

/-- The raw MC trigger `dbbl` equals `zjdbl ∨ gxdbl`: the extra `diff > 0`
conjunct is already contained in both disjuncts. -/
theorem dbblF_eq (c : ℕ → ℚ) (i : ℕ) : dbblF c i = (zjdblF c i || gxdblF c i) := by
  unfold dbblF zjdblF gxdblF
  cases hd : decide (0 < diffF c i) <;> simp

/-- The raw CD trigger of the negated series is the raw MC trigger. -/
theorem cccF_neg (c : ℕ → ℚ) (i : ℕ) : cccF (fun k => -c k) i = dbblF c i := by
  rw [cccF, aaaF_neg, bbbF_neg, dbblF_eq]

/-- When `dbbl` holds, `diff` is positive at that bar. -/
theorem dbblF_pos (c : ℕ → ℚ) (i : ℕ) (h : dbblF c i = true) : 0 < diffF c i := by
  unfold dbblF at h
  exact of_decide_eq_true (Bool.and_elim_right h)

/-- Under a nonnegative current diff, the MC confirmation coincides with the
CD confirmation of the negated series. -/
theorem dbjgF_eq_neg (c : ℕ → ℚ) (i : ℕ) (h : 0 ≤ diffF c i) :
    dbjgF c i = jjjF (fun k => -c k) i := by
  cases i with
  | zero => rfl
  | succ j =>
    cases hdb : dbblF c j with
    | false =>
      simp only [dbjgF, jjjF, cccF_neg, hdb, Bool.false_and]
    | true =>
      have hdj : 0 < diffF c j := dbblF_pos c j hdb
      simp only [dbjgF, jjjF, cccF_neg, hdb, Bool.true_and, diffF_neg, abs_neg,
        abs_of_nonneg h, abs_of_nonneg hdj.le]

/-- C2 counterexample: on the Close series `[5, 7, 2, 8, 4, 1]` the MC signal
fires at bar 5, while the CD signal on the pointwise-negated series does not —
MC is not the exact mirror of CD (its confirmation `diff.shift(1) >= diff*1.01`
lacks the absolute values of CD's `abs(diff.shift(1)) >= abs(diff)*1.01`). -/
theorem mc_not_mirror_cex :
    mcSig (closeOf cexClose) 5 = true
      ∧ cdSig (closeOf (cexClose.map (fun x => -x))) 5 = false := by
  refine ⟨?_, ?_⟩ <;> with_unfolding_all decide

/-- C2 (amended): the MC signal equals the CD signal of the pointwise-negated
Close series at every bar where the MACD diff is nonnegative at the bar and at
the preceding bar; the mirroring of lookbacks, sign and cross conditions and
the edge-triggered shape is exact, but MC's confirmation compares signed diffs,
so the two can differ when diff turns negative at the confirmation bar. -/
theorem mc_mirror_amended (cs : List ℚ) (i : ℕ)
    (h1 : 0 ≤ diffF (closeOf cs) i) (h2 : 0 ≤ diffF (closeOf cs) (i - 1)) :
    mcSig (closeOf cs) i = cdSig (closeOf (cs.map (fun x => -x))) i := by
  have hneg : closeOf (cs.map (fun x => -x)) = fun k => -closeOf cs k := by
    funext k
    simp only [closeOf, List.getD_eq_getElem?_getD, List.getElem?_map]
    cases cs[k]? <;> simp
  rw [hneg]
  unfold mcSig dbjgxcF cdSig dxdxF
  cases i with
  | zero => rfl
  | succ j =>
    rw [dbjgF_eq_neg (closeOf cs) (j + 1) h1]
    cases j with
    | zero => rfl
    | succ k =>
      have h2k : 0 ≤ diffF (closeOf cs) (k + 1) := by
        simpa using h2
      show (jjjF _ (k + 1 + 1) && !dbjgF (closeOf cs) (k + 1)) = _
      rw [dbjgF_eq_neg (closeOf cs) (k + 1) h2k]
      rfl

/-- C2 witness: the amended mirror equality evaluated on a rising 3-bar
series at bar 2 (where diff is nonnegative at bars 1 and 2). -/
theorem mc_mirror_amended_witness :
    mcSig (closeOf riseClose3) 2 = cdSig (closeOf (riseClose3.map (fun x => -x))) 2 :=
  mc_mirror_amended riseClose3 2 (by with_unfolding_all decide)
    (by with_unfolding_all decide)

/-- C7: the rolling-window form used for the resonance buy signal is pointwise
equal to `breakthrough.shift(9)`: at every index both are NaN for the first 9
positions and equal the breakthrough value 9 bars earlier afterwards. -/
theorem rolling_equiv_shift9 (b : List Bool) (i : ℕ) :
    rollingFirstIfAny b i = shiftNine b i := by
  unfold rollingFirstIfAny shiftNine
  by_cases h : i < 9
  · rw [if_pos (by omega), if_pos h]
  · rw [if_neg (by omega), if_neg h]
    congr 1
    by_cases hany : ((List.range 10).map (fun k => b.getD (i - 9 + k) false)).any id = true
    · rw [if_pos hany]
      rw [show List.range 10 = [0, 1, 2, 3, 4, 5, 6, 7, 8, 9] from by decide]
      simp only [List.map_cons, List.headD_cons]
      rw [Nat.add_zero]
    · rw [if_neg hany]
      have hmem : b.getD (i - 9 + 0) false
          ∈ (List.range 10).map (fun k => b.getD (i - 9 + k) false) :=
        List.mem_map.mpr ⟨0, by decide, rfl⟩
      cases hv : b.getD (i - 9 + 0) false with
      | false =>
        rw [Nat.add_zero] at hv
        rw [hv]
      | true => exact absurd (List.any_eq_true.mpr ⟨_, hmem, by simpa using hv⟩) hany

/-- C9 counterexample: on a 1-bar sequence whose High equals the opposite-signal
price, the rank is 1 ≥ 0.7 yet the code classifies not-a-local-extreme because
of the `len(window_data) > 1` guard. -/
theorem local_extremum_cex :
    isLocalMaximum oneBar 0 5 = false ∧ (7 : ℚ) / 10 ≤ mcRank oneBar 0 5 := by
  refine ⟨?_, ?_⟩ <;> with_unfolding_all decide

/-- C9 (amended): for bar sequences with at least two bars the local-extremum
check is exactly the ≥0.7 rank test on the `max(3, min(10, total_bars/20))`
half-width window centred on the opposite-signal index; a single-bar sequence
is classified not-a-local-extreme regardless of rank. -/
theorem local_extremum_amended (data : List Bar) (i : ℕ) (price : ℚ)
    (hn : 2 ≤ data.length) (hi : i < data.length) :
    isLocalMaximum data i price = decide ((7 : ℚ) / 10 ≤ mcRank data i price)
      ∧ isLocalMinimum data i price = decide ((7 : ℚ) / 10 ≤ cdRank data i price) := by
  have hlen : 1 < (localWindow data.length i).length := by
    unfold localWindow windowSizeB
    rw [List.length_range']
    set w := max 3 (min 10 (data.length / 20)) with hw
    have h3 : 3 ≤ w := le_max_left _ _
    omega
  constructor <;> simp [isLocalMaximum, isLocalMinimum, hlen]

/-- C9 witness: the amended characterization on a concrete 2-bar sequence. -/
theorem local_extremum_amended_witness :
    isLocalMaximum [⟨5, 5, 5⟩, ⟨6, 4, 5⟩] 0 5
        = decide ((7 : ℚ) / 10 ≤ mcRank [⟨5, 5, 5⟩, ⟨6, 4, 5⟩] 0 5)
      ∧ isLocalMinimum [⟨5, 5, 5⟩, ⟨6, 4, 5⟩] 0 5
        = decide ((7 : ℚ) / 10 ≤ cdRank [⟨5, 5, 5⟩, ⟨6, 4, 5⟩] 0 5) :=
  local_extremum_amended [⟨5, 5, 5⟩, ⟨6, 4, 5⟩] 0 5 (by decide) (by decide)

/-- C6 counterexample: `calculate_current_nx_values` computes a defined NX
boolean from a 2-bar series — the Resonance Aggregator's current NX flag is
not `None` although the series is far shorter than 89 bars. -/
theorem nx_guard_cex :
    nxCurrentResonance (some twoBars) = some true ∧ twoBars.length < 89 := by
  refine ⟨?_, ?_⟩
  · with_unfolding_all decide
  · decide

/-- C6 (amended): the Interval Backtester's NX flags are `None` whenever the
timeframe's series has fewer than 89 bars, but the Resonance Aggregator's
`calculate_current_nx_values` computes the EMA(24)/EMA(89) comparison for
every non-empty series with no minimum-length guard. -/
theorem nx_guard_amended (cs : List ℚ) :
    (cs.length < 89 → nxCurrentBacktester cs = none)
      ∧ (cs ≠ [] → (nxCurrentResonance (some cs)).isSome = true) := by
  constructor
  · intro h
    unfold nxCurrentBacktester
    rw [if_neg (by omega)]
  · intro h
    have hne : cs.length ≠ 0 := fun hh => h (List.length_eq_zero.mp hh)
    simp only [nxCurrentResonance, if_pos hne, Option.isSome_some]

/-- C6 witness: the amended statement evaluated on the 2-bar series. -/
theorem nx_guard_amended_witness :
    nxCurrentBacktester twoBars = none
      ∧ (nxCurrentResonance (some twoBars)).isSome = true :=
  ⟨(nx_guard_amended twoBars).1 (by decide), (nx_guard_amended twoBars).2 (by decide)⟩

/-- Taking a prefix of an appended string below the first part's length only
sees the first part. -/
theorem append_take_eq (a x : String) (n : ℕ) (h : n ≤ a.data.length) :
    (a ++ x).data.take n = a.data.take n := by
  rw [String.data_append a x, List.take_append_of_le_length h]

/-- Two appended strings differ when their first parts differ within the
first `n` characters. -/
theorem append_ne_append (a b : String) (n : ℕ) (hna : n ≤ a.data.length)
    (hnb : n ≤ b.data.length) (h : a.data.take n ≠ b.data.take n) (x y : String) :
    a ++ x ≠ b ++ y := by
  intro he
  exact h (by rw [← append_take_eq a x n hna, he, append_take_eq b y n hnb])

/-- None of the head keys of the zero-signal record starts with
`avg_volume_`. -/
theorem zeroHead_take_ne :
    ∀ k ∈ zeroHeadKeys, k.data.take 11 ≠ ("avg_volume_" : String).data.take 11 := by
  decide

/-- None of the tail keys of the zero-signal record starts with
`avg_volume_`. -/
theorem zeroTail_take_ne :
    ∀ k ∈ zeroTailKeys, k.data.take 11 ≠ ("avg_volume_" : String).data.take 11 := by
  decide

/-- No `avg_volume_{p}` key occurs anywhere in the zero-signal record. -/
theorem avgvol_not_mem (p : ℕ) :
    ("avg_volume_" : String) ++ toString p ∉ zeroSignalKeys := by
  intro hmem
  unfold zeroSignalKeys at hmem
  rcases List.mem_append.mp hmem with hmem1 | htail
  · rcases List.mem_append.mp hmem1 with hhead | hflat
    · exact zeroHead_take_ne _ hhead (append_take_eq _ _ 11 (by decide))
    · obtain ⟨q, hq, hk⟩ := List.mem_flatMap.mp hflat
      simp only [perOffsetZeroKeys, List.mem_cons, List.not_mem_nil, or_false] at hk
      rcases hk with h | h | h | h | h
      · exact append_ne_append "avg_volume_" "test_count_" 11
          (by decide) (by decide) (by decide) _ _ h
      · exact append_ne_append "avg_volume_" "success_rate_" 11
          (by decide) (by decide) (by decide) _ _ h
      · exact append_ne_append "avg_volume_" "avg_return_" 11
          (by decide) (by decide) (by decide) _ _ h
      · exact append_ne_append "avg_volume_" "returns_" 8
          (by decide) (by decide) (by decide) _ _ h
      · exact append_ne_append "avg_volume_" "volumes_" 8
          (by decide) (by decide) (by decide) _ _ h
  · exact zeroTail_take_ne _ htail (append_take_eq _ _ 11 (by decide))

/-- Membership in `periods = [0] + list(range(1, 101))` is exactly being an
offset 0..100. -/
theorem mem_periodsList (p : ℕ) : p ∈ periodsList ↔ p < 101 := by
  unfold periodsList
  rw [List.mem_cons, List.mem_range'_1]
  omega

/-- C8 counterexample: the zero-signal record omits the `avg_volume_0` field
that the populated record's per-offset loop writes, so its field shape is not
the full per-offset shape the claim asserts. -/
theorem zero_record_missing_avg_volume_cex :
    ("avg_volume_" : String) ++ toString 0 ∉ zeroSignalKeys
      ∧ ("avg_volume_" : String) ++ toString 0 ∈ perOffsetPopulatedKeys 0 :=
  ⟨avgvol_not_mem 0, by simp [perOffsetPopulatedKeys]⟩

/-- C8 (amended): for every offset 0..100 the zero-signal record contains the
per-offset `test_count`, `success_rate`, `avg_return`, `returns` and `volumes`
fields (zero/empty-valued), but not the `avg_volume` field, which only the
populated branch writes. -/
theorem zero_record_shape_amended (p : ℕ) (hp : p < 101) :
    (∀ k ∈ perOffsetZeroKeys p, k ∈ zeroSignalKeys)
      ∧ ("avg_volume_" : String) ++ toString p ∈ perOffsetPopulatedKeys p
      ∧ ("avg_volume_" : String) ++ toString p ∉ zeroSignalKeys := by
  refine ⟨?_, by simp [perOffsetPopulatedKeys], avgvol_not_mem p⟩
  intro k hk
  unfold zeroSignalKeys
  exact List.mem_append.mpr (Or.inl (List.mem_append.mpr (Or.inr
    (List.mem_flatMap.mpr ⟨p, (mem_periodsList p).mpr hp, hk⟩))))

/-- C8 witness: the amended shape statement at offset 0. -/
theorem zero_record_shape_amended_witness :
    (∀ k ∈ perOffsetZeroKeys 0, k ∈ zeroSignalKeys)
      ∧ ("avg_volume_" : String) ++ toString 0 ∈ perOffsetPopulatedKeys 0
      ∧ ("avg_volume_" : String) ++ toString 0 ∉ zeroSignalKeys :=
  zero_record_shape_amended 0 (by decide)

/-- Filtering an if-some filterMap is mapping over the filtered list. -/
theorem filterMap_ite {α : Type} (l : List ℕ) (g : ℕ → α) (q : ℕ → Prop)
    [DecidablePred q] :
    l.filterMap (fun i => if q i then some (g i) else none)
      = (l.filter (fun i => decide (q i))).map g := by
  induction l with
  | nil => rfl
  | cons x xs ih =>
    simp only [List.filterMap_cons, List.filter_cons]
    by_cases hq : q x <;> simp [hq, ih]

/-- Rows of `calculate_returns` are exactly the retained occurrence indices
with their per-offset return maps. -/
theorem calcRows_eq (close : List ℚ) (sig : List Bool) :
    calcRows close sig
      = (retainedIdxs close.length sig).map (fun i => (i, fun p => returnAt close i p)) := by
  unfold calcRows retainedIdxs
  exact filterMap_ite _ _ _

/-- Column `p` of the rows, as a filterMap over the retained indices. -/
theorem periodReturns_eq (close : List ℚ) (sig : List Bool) (p : ℕ) :
    periodReturns close sig p
      = (retainedIdxs close.length sig).filterMap (fun i => returnAt close i p) := by
  unfold periodReturns
  rw [calcRows_eq, List.filterMap_map]
  rfl

/-- A filterMap of everywhere-defined options keeps the length. -/
theorem length_filterMap_of_isSome {α β : Type} (l : List α) (f : α → Option β)
    (h : ∀ x ∈ l, (f x).isSome = true) : (l.filterMap f).length = l.length := by
  induction l with
  | nil => rfl
  | cons x xs ih =>
    obtain ⟨y, hy⟩ := Option.isSome_iff_exists.mp (h x (List.mem_cons_self x xs))
    simp only [List.filterMap_cons, hy, List.length_cons]
    rw [ih (fun z hz => h z (List.mem_cons_of_mem x hz))]

/-- C10: with the default offsets 0..100, every occurrence retained by
`calculate_returns` has a defined forward return at every offset (the
NaN-recording branch is unreachable), and `test_count_p` equals the number of
retained occurrences at every offset `p`. -/
theorem returns_defined_test_count (close : List ℚ) (sig : List Bool) (p : ℕ)
    (hp : p ≤ 100) :
    (∀ i ∈ retainedIdxs close.length sig, (returnAt close i p).isSome = true)
      ∧ testCount close sig p = (retainedIdxs close.length sig).length := by
  have hdef : ∀ i ∈ retainedIdxs close.length sig, (returnAt close i p).isSome = true := by
    intro i hi
    have h100 : i + 100 < close.length := of_decide_eq_true (List.mem_filter.mp hi).2
    unfold returnAt
    rw [if_pos (by omega)]
    rfl
  refine ⟨hdef, ?_⟩
  unfold testCount
  rw [periodReturns_eq]
  exact length_filterMap_of_isSome _ _ hdef

/-- C10 witness: evaluated on the declining series with one signal at index 0
and offset 50. -/
theorem returns_defined_test_count_witness :
    (returnAt declClose 0 50).isSome = true
      ∧ testCount declClose sigAtZero 50 = (retainedIdxs declClose.length sigAtZero).length :=
  ⟨(returns_defined_test_count declClose sigAtZero 50 (by decide)).1 0
      (by with_unfolding_all decide),
   (returns_defined_test_count declClose sigAtZero 50 (by decide)).2⟩

/-- In a strictly increasing list, the member `i` itself fails the
strictly-greater filter, so the filtered list is strictly shorter. -/
theorem length_filter_lt_of_mem {l : List ℕ} {i : ℕ} (h : i ∈ l) :
    (l.filter (fun j => decide (i < j))).length < l.length := by
  induction l with
  | nil => exact absurd h (List.not_mem_nil i)
  | cons x xs ih =>
    rcases List.mem_cons.mp h with rfl | hxs
    · simp only [List.filter_cons]
      split
      · next hcond => exact absurd (of_decide_eq_true hcond) (lt_irrefl i)
      · exact Nat.lt_succ_of_le (List.length_filter_le _ _)
    · have hlt := ih hxs
      simp only [List.filter_cons]
      split
      · simpa using Nat.succ_lt_succ hlt
      · exact Nat.lt_succ_of_lt hlt

/-- Membership in the `k`-th drop of a strictly sorted list, characterised by
the number of strictly larger members. -/
theorem mem_drop_sorted_iff {l : List ℕ} (hp : l.Pairwise (· < ·)) {k i : ℕ} :
    i ∈ l.drop k ↔ i ∈ l ∧ (l.filter (fun j => decide (i < j))).length < l.length - k := by
  induction l generalizing k with
  | nil => simp
  | cons x xs ih =>
    have hpx : ∀ a ∈ xs, x < a := (List.pairwise_cons.mp hp).1
    have hpxs : xs.Pairwise (· < ·) := (List.pairwise_cons.mp hp).2
    cases k with
    | zero =>
      simp only [List.drop_zero, Nat.sub_zero]
      exact ⟨fun h => ⟨h, length_filter_lt_of_mem h⟩, fun h => h.1⟩
    | succ k =>
      simp only [List.drop_succ_cons]
      rw [ih hpxs]
      constructor
      · rintro ⟨hmem, hcnt⟩
        have hxi : x < i := hpx i hmem
        refine ⟨List.mem_cons_of_mem _ hmem, ?_⟩
        simp only [List.filter_cons]
        rw [if_neg (by simp; omega)]
        simpa [List.length_cons, Nat.succ_sub_succ] using hcnt
      · rintro ⟨hmem, hcnt⟩
        rcases List.mem_cons.mp hmem with rfl | hxs2
        · exfalso
          have hfull : (i :: xs).filter (fun j => decide (i < j)) = xs := by
            simp only [List.filter_cons]
            rw [if_neg (by simp)]
            exact List.filter_eq_self.mpr (fun a ha => decide_eq_true (hpx a ha))
          rw [hfull, List.length_cons, Nat.succ_sub_succ] at hcnt
          omega
        · have hxi : x < i := hpx i hxs2
          refine ⟨hxs2, ?_⟩
          have hstep : (x :: xs).filter (fun j => decide (i < j))
              = xs.filter (fun j => decide (i < j)) := by
            simp only [List.filter_cons]
            rw [if_neg (by simp; omega)]
          rw [hstep, List.length_cons, Nat.succ_sub_succ] at hcnt
          exact hcnt

/-- Membership in the last-seven truncation of a strictly sorted list: a
member survives iff fewer than 7 members are larger. -/
theorem mem_lastSeven {xs : List ℕ} (hp : xs.Pairwise (· < ·)) (i : ℕ) :
    i ∈ lastSeven xs
      ↔ i ∈ xs ∧ (xs.filter (fun j => decide (i < j))).length < 7 := by
  unfold lastSeven
  split
  · next h7 =>
    rw [mem_drop_sorted_iff hp]
    have he : xs.length - (xs.length - 7) = 7 := by omega
    rw [he]
  · next h7 =>
    constructor
    · exact fun h => ⟨h, lt_of_lt_of_le (length_filter_lt_of_mem h) (by omega)⟩
    · exact fun h => h.1

/-- Signal positions are strictly increasing. -/
theorem trueIdxs_pairwise (sig : List Bool) : (trueIdxs sig).Pairwise (· < ·) :=
  (List.pairwise_lt_range sig.length).filter _

/-- Membership in the signal-position list. -/
theorem mem_trueIdxs (sig : List Bool) (i : ℕ) :
    i ∈ trueIdxs sig ↔ i < sig.length ∧ sig.getD i false = true := by
  unfold trueIdxs
  rw [List.mem_filter, List.mem_range]

/-- C4: `calculate_returns` evaluates an occurrence at index `i` iff the
signal is true there, fewer than 7 signal occurrences lie after it (only the
most recent 7 are kept when more exist), and `i + 100 < len(data)` (the
end-of-data exclusion) — skipped occurrences appear in no row, hence
contribute to no per-offset aggregate. -/
theorem rows_are_recent_retained (close : List ℚ) (sig : List Bool) (i : ℕ) :
    i ∈ (calcRows close sig).map Prod.fst
      ↔ (i < sig.length ∧ sig.getD i false = true
          ∧ ((trueIdxs sig).filter (fun j => decide (i < j))).length < 7
          ∧ i + 100 < close.length) := by
  rw [calcRows_eq, List.map_map]
  have hmm : (Prod.fst ∘ fun i => ((i, fun p => returnAt close i p) : ℕ × (ℕ → Option ℚ))) = id := rfl
  rw [hmm, List.map_id]
  unfold retainedIdxs
  rw [List.mem_filter, mem_lastSeven (trueIdxs_pairwise sig), mem_trueIdxs]
  constructor
  · rintro ⟨⟨⟨h1, h2⟩, h3⟩, h4⟩
    exact ⟨h1, h2, h3, of_decide_eq_true h4⟩
  · rintro ⟨h1, h2, h3, h4⟩
    exact ⟨⟨⟨h1, h2⟩, h3⟩, decide_eq_true h4⟩

/-- Round-half-even never exceeds the argument by more than a half. -/
theorem rhe_le_add_half (q : ℚ) : (rhe q : ℚ) ≤ q + 1 / 2 := by
  unfold rhe
  have hf : (⌊q⌋ : ℚ) ≤ q := Int.floor_le q
  have hf2 : q < ⌊q⌋ + 1 := Int.lt_floor_add_one q
  split
  · linarith
  · next h1 =>
    push_neg at h1
    split
    · next h2 => push_cast; linarith
    · next h2 =>
      push_neg at h2
      split
      · linarith
      · push_cast; linarith

/-- Round-half-even never falls short of the argument by more than a half. -/
theorem sub_half_le_rhe (q : ℚ) : q - 1 / 2 ≤ (rhe q : ℚ) := by
  unfold rhe
  have hf : (⌊q⌋ : ℚ) ≤ q := Int.floor_le q
  have hf2 : q < ⌊q⌋ + 1 := Int.lt_floor_add_one q
  split
  · next h1 => linarith
  · next h1 =>
    push_neg at h1
    split
    · next h2 => push_cast; linarith
    · next h2 =>
      push_neg at h2
      split
      · linarith
      · push_cast; linarith

/-- A percentage strictly below the two-decimal rounding threshold -0.005
rounds to a negative value. -/
theorem round2_neg_of_lt (q : ℚ) (h : q < -(1 / 200)) : round2 q < 0 := by
  unfold round2
  have hb := rhe_le_add_half (q * 100)
  have hlt : ((rhe (q * 100) : ℤ) : ℚ) < 0 := by linarith
  exact div_neg_of_neg_of_pos hlt (by norm_num)

/-- A percentage strictly above the two-decimal rounding threshold 0.005
rounds to a positive value. -/
theorem round2_pos_of_lt (q : ℚ) (h : 1 / 200 < q) : 0 < round2 q := by
  unfold round2
  have hb := sub_half_le_rhe (q * 100)
  have hlt : 0 < ((rhe (q * 100) : ℤ) : ℚ) := by linarith
  exact div_pos hlt (by norm_num)

/-- Round-half-even is the identity on integers. -/
theorem rhe_intCast (k : ℤ) : rhe (k : ℚ) = k := by
  unfold rhe
  rw [Int.floor_intCast, sub_self]
  rw [if_pos (by norm_num)]

/-- Rounding zero gives zero. -/
theorem round2_zero : round2 0 = 0 := by
  unfold round2
  rw [zero_mul, show ((0 : ℚ)) = ((0 : ℤ) : ℚ) from rfl, rhe_intCast]
  norm_num

/-- Rounding one hundred gives one hundred. -/
theorem round2_hundred : round2 100 = 100 := by
  unfold round2
  rw [show ((100 : ℚ) * 100) = ((10000 : ℤ) : ℚ) by norm_num, rhe_intCast]
  norm_num

/-- The sum of 0/1 indicators over a list counts the satisfying members. -/
theorem sum_indicator_eq_count (l : List ℚ) (P : ℚ → Prop) [DecidablePred P] :
    (l.map (fun r => if P r then (1 : ℚ) else 0)).sum
      = ((l.filter (fun r => decide (P r))).length : ℚ) := by
  induction l with
  | nil => simp
  | cons x xs ih =>
    simp only [List.map_cons, List.sum_cons, List.filter_cons]
    by_cases hp : P x
    · simp only [if_pos hp, decide_eq_true hp, if_true, List.length_cons, ih]
      push_cast
      ring
    · simp only [if_neg hp, decide_eq_false hp, Bool.false_eq_true, if_false, ih,
        zero_add]

/-- C3 (amended): per-offset `success_rate_p` is the 2-decimal rounding of the
percentage of retained (rounded) forward returns strictly greater than 0 for
CD signals and strictly less than 0 for MC signals; an MC occurrence set
followed by monotonically declining Close (each forward value more than the
0.005% rounding threshold below the entry, so the rounded return stays
negative) yields success rate 100 at every offset 1..100 but 0 at offset 0,
whose return is identically zero; dually for CD with monotonically rising
Close. -/
theorem success_rate_sign (close : List ℚ) (sig : List Bool) :
    (∀ p,
      successRateCD close sig p
        = round2 ((((periodReturns close sig p).filter (fun r => decide (0 < r))).length : ℚ)
            / ((periodReturns close sig p).length : ℚ) * 100)
      ∧ successRateMC close sig p
        = if 0 < (periodReturns close sig p).length then
            round2 ((((periodReturns close sig p).filter (fun r => decide (r < 0))).length : ℚ)
              / ((periodReturns close sig p).length : ℚ) * 100)
          else 0)
    ∧ ((retainedIdxs close.length sig ≠ []
        ∧ (∀ i ∈ retainedIdxs close.length sig, 0 < close.getD i 0
            ∧ ∀ q, q < 101 → 1 ≤ q →
                close.getD (i + q) 0 < close.getD (i + q - 1) 0
                ∧ close.getD (i + q) 0 < 19999 / 20000 * close.getD i 0)) →
      successRateMC close sig 0 = 0
        ∧ ∀ p, 1 ≤ p → p ≤ 100 → successRateMC close sig p = 100)
    ∧ ((retainedIdxs close.length sig ≠ []
        ∧ (∀ i ∈ retainedIdxs close.length sig, 0 < close.getD i 0
            ∧ ∀ q, q < 101 → 1 ≤ q →
                close.getD (i + q - 1) 0 < close.getD (i + q) 0
                ∧ 20001 / 20000 * close.getD i 0 < close.getD (i + q) 0)) →
      successRateCD close sig 0 = 0
        ∧ ∀ p, 1 ≤ p → p ≤ 100 → successRateCD close sig p = 100) := by
  have hdef : ∀ p, p ≤ 100 → ∀ i ∈ retainedIdxs close.length sig,
      (returnAt close i p).isSome = true := by
    intro p hp i hi
    have h100 : i + 100 < close.length := of_decide_eq_true (List.mem_filter.mp hi).2
    unfold returnAt
    rw [if_pos (by omega)]
    rfl
  have hlen : ∀ p, p ≤ 100 → (periodReturns close sig p).length
      = (retainedIdxs close.length sig).length := by
    intro p hp
    rw [periodReturns_eq]
    exact length_filterMap_of_isSome _ _ (hdef p hp)
  have hval : ∀ p, p ≤ 100 → ∀ x ∈ periodReturns close sig p,
      ∃ i ∈ retainedIdxs close.length sig,
        x = round2 ((close.getD (i + p) 0 - close.getD i 0) / close.getD i 0 * 100) := by
    intro p hp x hx
    rw [periodReturns_eq] at hx
    obtain ⟨i, hi, hxi⟩ := List.mem_filterMap.mp hx
    have h100 : i + 100 < close.length := of_decide_eq_true (List.mem_filter.mp hi).2
    unfold returnAt at hxi
    rw [if_pos (by omega)] at hxi
    exact ⟨i, hi, (Option.some.inj hxi).symm⟩
  refine ⟨?_, ?_, ?_⟩
  · intro p
    constructor
    · unfold successRateCD
      rw [sum_indicator_eq_count]
    · unfold successRateMC
      by_cases hc : 0 < (periodReturns close sig p).length
      · rw [if_pos hc, if_pos hc, sum_indicator_eq_count]
      · rw [if_neg hc, if_neg hc]
  · rintro ⟨hne, hall⟩
    have hpos0 : ∀ p, p ≤ 100 → 0 < (periodReturns close sig p).length := by
      intro p hp
      rw [hlen p hp]
      exact List.length_pos.mpr hne
    constructor
    · unfold successRateMC
      rw [if_pos (hpos0 0 (by omega))]
      have hzero : ∀ x ∈ periodReturns close sig 0, x = 0 := by
        intro x hx
        obtain ⟨i, hi, hxv⟩ := hval 0 (by omega) x hx
        rw [hxv, Nat.add_zero, sub_self, zero_div, zero_mul, round2_zero]
      have hsum : ((periodReturns close sig 0).map
          (fun r => if r < 0 then (1 : ℚ) else 0)).sum = 0 := by
        apply List.sum_eq_zero
        intro y hy
        obtain ⟨x, hx, rfl⟩ := List.mem_map.mp hy
        rw [hzero x hx]
        norm_num
      rw [hsum, zero_div, zero_mul, round2_zero]
    · intro p hp1 hp100
      have hneg : ∀ x ∈ periodReturns close sig p, x < 0 := by
        intro x hx
        obtain ⟨i, hi, hxv⟩ := hval p hp100 x hx
        obtain ⟨hposi, hdecl⟩ := hall i hi
        have hq := (hdecl p (by omega) hp1).2
        rw [hxv]
        apply round2_neg_of_lt
        rw [div_mul_eq_mul_div, div_lt_iff₀ hposi]
        linarith
      unfold successRateMC
      rw [if_pos (hpos0 p hp100)]
      have hsum : ((periodReturns close sig p).map
          (fun r => if r < 0 then (1 : ℚ) else 0)).sum
          = ((periodReturns close sig p).length : ℚ) := by
        rw [sum_indicator_eq_count, List.filter_eq_self.mpr
          (fun a ha => decide_eq_true (hneg a ha))]
      rw [hsum, div_self (Nat.cast_ne_zero.mpr (hpos0 p hp100).ne'), one_mul,
        round2_hundred]
  · rintro ⟨hne, hall⟩
    have hpos0 : ∀ p, p ≤ 100 → 0 < (periodReturns close sig p).length := by
      intro p hp
      rw [hlen p hp]
      exact List.length_pos.mpr hne
    constructor
    · unfold successRateCD
      have hzero : ∀ x ∈ periodReturns close sig 0, x = 0 := by
        intro x hx
        obtain ⟨i, hi, hxv⟩ := hval 0 (by omega) x hx
        rw [hxv, Nat.add_zero, sub_self, zero_div, zero_mul, round2_zero]
      have hsum : ((periodReturns close sig 0).map
          (fun r => if 0 < r then (1 : ℚ) else 0)).sum = 0 := by
        apply List.sum_eq_zero
        intro y hy
        obtain ⟨x, hx, rfl⟩ := List.mem_map.mp hy
        rw [hzero x hx]
        norm_num
      rw [hsum, zero_div, zero_mul, round2_zero]
    · intro p hp1 hp100
      have hposr : ∀ x ∈ periodReturns close sig p, 0 < x := by
        intro x hx
        obtain ⟨i, hi, hxv⟩ := hval p hp100 x hx
        obtain ⟨hposi, hrise⟩ := hall i hi
        have hq := (hrise p (by omega) hp1).2
        rw [hxv]
        apply round2_pos_of_lt
        rw [div_mul_eq_mul_div, lt_div_iff₀ hposi]
        linarith
      unfold successRateCD
      have hsum : ((periodReturns close sig p).map
          (fun r => if 0 < r then (1 : ℚ) else 0)).sum
          = ((periodReturns close sig p).length : ℚ) := by
        rw [sum_indicator_eq_count, List.filter_eq_self.mpr
          (fun a ha => decide_eq_true (hposr a ha))]
      rw [hsum, div_self (Nat.cast_ne_zero.mpr (hpos0 p hp100).ne'), one_mul,
        round2_hundred]

/-- C3 counterexample: a retained MC occurrence at index 0 of a monotonically
declining Close series has `success_rate_0 = 0`, not 100 — the offset-0 return
is identically zero and is not counted as a success, so the claim fails at a
valid offset. -/
theorem success_rate_cex :
    (∀ k, k < 100 → declClose.getD (k + 1) 0 < declClose.getD k 0)
      ∧ retainedIdxs declClose.length sigAtZero = [0]
      ∧ successRateMC declClose sigAtZero 0 = 0 := by
  refine ⟨?_, ?_, ?_⟩ <;> with_unfolding_all decide

/-- C3 witness: success rate 100 at offset 1 on the concrete declining series
(MC) and on the concrete rising series (CD). -/
theorem success_rate_sign_witness :
    successRateMC declClose sigAtZero 1 = 100
      ∧ successRateCD riseClose101 sigAtZero 1 = 100 :=
  ⟨((success_rate_sign declClose sigAtZero).2.1
      ⟨by with_unfolding_all decide, by with_unfolding_all decide⟩).2 1
      (by decide) (by decide),
   ((success_rate_sign riseClose101 sigAtZero).2.2
      ⟨by with_unfolding_all decide, by with_unfolding_all decide⟩).2 1
      (by decide) (by decide)⟩

/-- Membership in the first-appearance deduplication relative to the seen accumulator. -/
theorem mem_firstAppearAux (x : String) : ∀ (l : List String) (seen : List String),
    x ∈ firstAppearAux seen l ↔ x ∈ l ∧ x ∉ seen := by
  intro l
  induction l with
  | nil => intro seen; simp [firstAppearAux]
  | cons y ys ih =>
    intro seen
    unfold firstAppearAux
    by_cases hy : seen.contains y = true
    · rw [if_pos hy]
      have hymem : y ∈ seen := List.elem_iff.mp hy
      rw [ih seen]
      constructor
      · rintro ⟨hx, hns⟩
        exact ⟨List.mem_cons_of_mem _ hx, hns⟩
      · rintro ⟨hx, hns⟩
        rcases List.mem_cons.mp hx with rfl | h2
        · exact absurd hymem hns
        · exact ⟨h2, hns⟩
    · rw [if_neg hy]
      have hynot : y ∉ seen := fun hm => hy (List.elem_iff.mpr hm)
      constructor
      · intro hx
        rcases List.mem_cons.mp hx with rfl | h2
        · exact ⟨List.mem_cons_self _ _, hynot⟩
        · obtain ⟨hys, hnys⟩ := (ih (y :: seen)).mp h2
          exact ⟨List.mem_cons_of_mem _ hys,
            fun hs => hnys (List.mem_cons_of_mem _ hs)⟩
      · rintro ⟨hx, hns⟩
        rcases List.mem_cons.mp hx with rfl | h2
        · exact List.mem_cons_self _ _
        · by_cases hxy : x = y
          · subst hxy
            exact List.mem_cons_self _ _
          · refine List.mem_cons_of_mem _ ((ih (y :: seen)).mpr ⟨h2, ?_⟩)
            intro hs
            rcases List.mem_cons.mp hs with h3 | h3
            · exact hxy h3
            · exact hns h3

/-- First-appearance deduplication preserves membership. -/
theorem mem_firstAppear (x : String) (l : List String) :
    x ∈ firstAppear l ↔ x ∈ l := by
  unfold firstAppear
  rw [mem_firstAppearAux]
  simp

/-- A qualifying ticker has a row in the broad window, so the ticker loop visits it. -/
theorem qualifies_mem_tickersOf (fam : List String) (bw : List SigRec)
    (t : String) (pe : ℕ)
    (h : 3 ≤ (distinctFamIntervals fam (tickerWindowData bw t pe)).length) :
    t ∈ tickersOf bw := by
  have hne : tickerWindowData bw t pe ≠ [] := by
    intro he
    rw [he] at h
    simp [distinctFamIntervals, firstAppear, firstAppearAux] at h
  obtain ⟨r, hr⟩ := List.exists_mem_of_ne_nil _ hne
  obtain ⟨hrbw, hcond⟩ := List.mem_filter.mp hr
  have ht : r.ticker = t := of_decide_eq_true (Bool.and_elim_left hcond)
  unfold tickersOf
  exact (mem_firstAppear _ _).mpr (List.mem_map.mpr ⟨r, hrbw, ht⟩)

/-- A property preserved by each step is preserved by the fold. -/
theorem foldl_keeps {α : Type} (f : IdSt → α → IdSt) (P : IdSt → Prop)
    (hf : ∀ st a, P st → P (f st a)) (ts : List α) :
    ∀ st, P st → P (List.foldl f st ts) := by
  induction ts with
  | nil => exact fun st h => h
  | cons x xs ih => exact fun st h => ih (f st x) (hf st x h)

/-- A per-element property established by its own step and preserved by later
steps holds after the fold for every element of the list. -/
theorem foldl_reaches {α : Type} (f : IdSt → α → IdSt)
    (P : IdSt → Prop) (Q : α → IdSt → Prop)
    (hP : ∀ st a, P st → P (f st a))
    (hstep : ∀ st a, P st → Q a (f st a))
    (hmono : ∀ st a b, Q a st → Q a (f st b)) (ts : List α) :
    ∀ st, P st → ∀ a ∈ ts, Q a (List.foldl f st ts) := by
  induction ts with
  | nil =>
    intro st hp a ha
    exact absurd ha (List.not_mem_nil a)
  | cons x xs ih =>
    intro st hp a ha
    rcases List.mem_cons.mp ha with rfl | hxs
    · exact foldl_keeps f (Q a) (fun s b h => hmono s a b h) xs (f st a) (hstep st a hp)
    · exact ih (f st x) (hP st x hp) a hxs

/-- A property of all produced candidates is maintained through a fold whose
steps maintain it. -/
theorem foldl_all_out {α : Type} (f : IdSt → α → IdSt) (R : Cand → Prop) :
    ∀ (ts : List α),
      (∀ st a, a ∈ ts → (∀ c ∈ st.out, R c) → ∀ c ∈ (f st a).out, R c) →
      ∀ st, (∀ c ∈ st.out, R c) → ∀ c ∈ (List.foldl f st ts).out, R c := by
  intro ts
  induction ts with
  | nil => intro _ st h; exact h
  | cons x xs ih =>
    intro hstep st h
    exact ih (fun st2 a ha => hstep st2 a (List.mem_cons_of_mem _ ha)) (f st x)
      (hstep st x (List.mem_cons_self _ _) h)

/-- The ticker step only appends to the candidate list. -/
theorem stepTicker_out_append (fam : List String) (ad : List (String × List ℕ))
    (bw : List SigRec) (d : ℕ) (st : IdSt) (t : String) :
    ∃ l, (stepTicker fam ad bw d st t).out = st.out ++ l := by
  unfold stepTicker
  split
  · split
    · exact ⟨[], (List.append_nil _).symm⟩
    · exact ⟨_, rfl⟩
  · exact ⟨[], (List.append_nil _).symm⟩

/-- Recorded keys survive the ticker step. -/
theorem stepTicker_keys_mono (fam : List String) (ad : List (String × List ℕ))
    (bw : List SigRec) (d : ℕ) (st : IdSt) (t : String) (k : String × ℕ)
    (h : k ∈ st.out.map (fun c => (c.ticker, c.date))) :
    k ∈ (stepTicker fam ad bw d st t).out.map (fun c => (c.ticker, c.date)) := by
  obtain ⟨l, hl⟩ := stepTicker_out_append fam ad bw d st t
  rw [hl, List.map_append]
  exact List.mem_append_left _ h

/-- The ticker step keeps `processed_combinations` equal to the recorded keys
and keeps the recorded keys duplicate-free. -/
theorem stepTicker_inv (fam : List String) (ad : List (String × List ℕ))
    (bw : List SigRec) (d : ℕ) (st : IdSt) (t : String)
    (h : st.processed = (st.out.map (fun c => (c.ticker, c.date))).reverse
      ∧ (st.out.map (fun c => (c.ticker, c.date))).Nodup) :
    (stepTicker fam ad bw d st t).processed
        = ((stepTicker fam ad bw d st t).out.map (fun c => (c.ticker, c.date))).reverse
      ∧ ((stepTicker fam ad bw d st t).out.map (fun c => (c.ticker, c.date))).Nodup := by
  obtain ⟨h1, h2⟩ := h
  unfold stepTicker
  split
  · split
    · exact ⟨h1, h2⟩
    · next hcont =>
      have hnot : (t, maxSigDay (tickerWindowData bw t (windowEndDay (ad.lookup t) d)))
          ∉ st.out.map (fun c => (c.ticker, c.date)) := by
        intro hm
        exact hcont (h1 ▸ List.elem_iff.mpr ((List.mem_reverse).mpr hm))
      constructor
      · simp [h1, List.map_append, List.reverse_append]
      · simp only [List.map_append, List.map_cons, List.map_nil]
        rw [List.nodup_append]
        refine ⟨h2, List.nodup_singleton _, ?_⟩
        intro x hx hxs
        rw [List.mem_singleton] at hxs
        subst hxs
        exact hnot hx
  · exact ⟨h1, h2⟩

/-- Processing a qualifying ticker leaves its key recorded (either it was
already recorded, or it is appended now). -/
theorem stepTicker_records (fam : List String) (ad : List (String × List ℕ))
    (bw : List SigRec) (d : ℕ) (st : IdSt) (t : String)
    (hinv : st.processed = (st.out.map (fun c => (c.ticker, c.date))).reverse)
    (hq : 3 ≤ (distinctFamIntervals fam
        (tickerWindowData bw t (windowEndDay (ad.lookup t) d))).length) :
    (t, maxSigDay (tickerWindowData bw t (windowEndDay (ad.lookup t) d)))
      ∈ (stepTicker fam ad bw d st t).out.map (fun c => (c.ticker, c.date)) := by
  unfold stepTicker
  rw [if_pos hq]
  split
  · next hc =>
    have hmem := List.elem_iff.mp hc
    rw [hinv, List.mem_reverse] at hmem
    exact hmem
  · simp

/-- The ticker step preserves any property that the newly appended candidate
would satisfy under the qualification condition. -/
theorem stepTicker_sound (fam : List String) (ad : List (String × List ℕ))
    (bw : List SigRec) (d : ℕ) (st : IdSt) (t : String) (R : Cand → Prop)
    (hR : 3 ≤ (distinctFamIntervals fam
        (tickerWindowData bw t (windowEndDay (ad.lookup t) d))).length →
      R ⟨t, maxSigDay (tickerWindowData bw t (windowEndDay (ad.lookup t) d))⟩)
    (h : ∀ c ∈ st.out, R c) : ∀ c ∈ (stepTicker fam ad bw d st t).out, R c := by
  unfold stepTicker
  split
  · next hq =>
    split
    · exact h
    · intro c hc
      rcases List.mem_append.mp hc with h1 | h1
      · exact h c h1
      · rw [List.mem_singleton] at h1
        subst h1
        exact hR hq
  · exact h

/-- A fold of append-only steps only appends to the candidate list. -/
theorem foldl_out_grows {α : Type} (f : IdSt → α → IdSt)
    (hf : ∀ st a, ∃ l, (f st a).out = st.out ++ l) (ts : List α) :
    ∀ st, ∃ l, (List.foldl f st ts).out = st.out ++ l := by
  induction ts with
  | nil => exact fun st => ⟨[], (List.append_nil _).symm⟩
  | cons x xs ih =>
    intro st
    obtain ⟨l1, h1⟩ := hf st x
    obtain ⟨l2, h2⟩ := ih (f st x)
    exact ⟨l1 ++ l2, by rw [List.foldl_cons, h2, h1, List.append_assoc]⟩

/-- The date step preserves the processed-keys invariant. -/
theorem stepDay_inv (fam : List String) (ad : List (String × List ℕ))
    (recs : List SigRec) (st : IdSt) (d : ℕ)
    (h : st.processed = (st.out.map (fun c => (c.ticker, c.date))).reverse
      ∧ (st.out.map (fun c => (c.ticker, c.date))).Nodup) :
    (stepDay fam ad recs st d).processed
        = ((stepDay fam ad recs st d).out.map (fun c => (c.ticker, c.date))).reverse
      ∧ ((stepDay fam ad recs st d).out.map (fun c => (c.ticker, c.date))).Nodup := by
  unfold stepDay
  exact foldl_keeps _ _ (fun st2 a h2 => stepTicker_inv fam ad _ d st2 a h2) _ st h

/-- Recorded keys survive the date step. -/
theorem stepDay_keys_mono (fam : List String) (ad : List (String × List ℕ))
    (recs : List SigRec) (st : IdSt) (d : ℕ) (k : String × ℕ)
    (h : k ∈ st.out.map (fun c => (c.ticker, c.date))) :
    k ∈ (stepDay fam ad recs st d).out.map (fun c => (c.ticker, c.date)) := by
  unfold stepDay
  obtain ⟨l, hl⟩ := foldl_out_grows _
    (fun st2 a => stepTicker_out_append fam ad _ d st2 a) _ st
  rw [hl, List.map_append]
  exact List.mem_append_left _ h

/-- After processing a date, every ticker qualifying at that date has its key
recorded. -/
theorem stepDay_records (fam : List String) (ad : List (String × List ℕ))
    (recs : List SigRec) (st : IdSt) (d : ℕ)
    (hinv : st.processed = (st.out.map (fun c => (c.ticker, c.date))).reverse
      ∧ (st.out.map (fun c => (c.ticker, c.date))).Nodup)
    (t : String)
    (hq : 3 ≤ (distinctFamIntervals fam (tickerWindowData (broadWindow recs d) t
        (windowEndDay (ad.lookup t) d))).length) :
    (t, maxSigDay (tickerWindowData (broadWindow recs d) t (windowEndDay (ad.lookup t) d)))
      ∈ (stepDay fam ad recs st d).out.map (fun c => (c.ticker, c.date)) := by
  unfold stepDay
  refine foldl_reaches (stepTicker fam ad (broadWindow recs d) d)
    (fun st2 => st2.processed = (st2.out.map (fun c => (c.ticker, c.date))).reverse
      ∧ (st2.out.map (fun c => (c.ticker, c.date))).Nodup)
    (fun a st2 => 3 ≤ (distinctFamIntervals fam (tickerWindowData (broadWindow recs d) a
        (windowEndDay (ad.lookup a) d))).length →
      (a, maxSigDay (tickerWindowData (broadWindow recs d) a (windowEndDay (ad.lookup a) d)))
        ∈ st2.out.map (fun c => (c.ticker, c.date)))
    (fun st2 a h2 => stepTicker_inv fam ad _ d st2 a h2)
    (fun st2 a hp hqa => stepTicker_records fam ad _ d st2 a hp.1 hqa)
    (fun st2 a b hQ hqa => stepTicker_keys_mono fam ad _ d st2 b _ (hQ hqa))
    (tickersOf (broadWindow recs d)) st hinv t
    (qualifies_mem_tickersOf fam (broadWindow recs d) t _ hq) hq

/-- C5 (amended): a candidate is recorded by `identify_1234`/`identify_5230`
exactly when, for some occurrence date `D`, the ticker has at least 3 distinct
confirming family intervals within the code's window — the 10-day broad
prefilter intersected with the `[D, precise trading-day end]` cutoff — keyed
and deduplicated by `(ticker, most recent signal date in that window)`:
every recorded candidate arises from such a qualifying window, every
qualifying window's key is recorded, and no key is recorded twice. -/
theorem identify_characterization (fam : List String) (recs0 : List SigRec)
    (ad : List (String × List ℕ)) :
    (∀ c ∈ identifyCands fam recs0 ad,
        ∃ d ∈ uniqueDays (famFiltered fam recs0),
          3 ≤ (distinctFamIntervals fam (codeWindowData fam recs0 ad d c.ticker)).length
            ∧ c.date = maxSigDay (codeWindowData fam recs0 ad d c.ticker))
      ∧ (∀ d ∈ uniqueDays (famFiltered fam recs0), ∀ t : String,
          3 ≤ (distinctFamIntervals fam (codeWindowData fam recs0 ad d t)).length →
            (t, maxSigDay (codeWindowData fam recs0 ad d t))
              ∈ (identifyCands fam recs0 ad).map (fun c => (c.ticker, c.date)))
      ∧ ((identifyCands fam recs0 ad).map (fun c => (c.ticker, c.date))).Nodup := by
  have hinv0 : (IdSt.mk [] []).processed
      = ((IdSt.mk [] []).out.map (fun c => (c.ticker, c.date))).reverse
      ∧ ((IdSt.mk [] []).out.map (fun c => (c.ticker, c.date))).Nodup := by
    constructor <;> simp
  have hInvF : ((uniqueDays (famFiltered fam recs0)).foldl
        (stepDay fam ad (famFiltered fam recs0)) ⟨[], []⟩).processed
      = (((uniqueDays (famFiltered fam recs0)).foldl
          (stepDay fam ad (famFiltered fam recs0)) ⟨[], []⟩).out.map
        (fun c => (c.ticker, c.date))).reverse
      ∧ (((uniqueDays (famFiltered fam recs0)).foldl
          (stepDay fam ad (famFiltered fam recs0)) ⟨[], []⟩).out.map
        (fun c => (c.ticker, c.date))).Nodup :=
    foldl_keeps _ _ (fun st d h => stepDay_inv fam ad _ st d h) _ _ hinv0
  refine ⟨?_, ?_, ?_⟩
  · -- soundness
    unfold identifyCands codeWindowData
    refine foldl_all_out (stepDay fam ad (famFiltered fam recs0)) _ _
      ?_ ⟨[], []⟩ (by intro c hc; exact absurd hc (List.not_mem_nil c)) 
    intro st d hd hall
    unfold stepDay
    refine foldl_all_out (stepTicker fam ad (broadWindow (famFiltered fam recs0) d) d) _ _
      ?_ st hall
    intro st2 t ht hall2
    refine stepTicker_sound fam ad _ d st2 t _ ?_ hall2
    intro hq
    exact ⟨d, hd, hq, rfl⟩
  · -- completeness
    intro d hd t hq
    unfold identifyCands
    unfold codeWindowData at hq ⊢
    exact foldl_reaches (stepDay fam ad (famFiltered fam recs0))
      (fun st2 => st2.processed = (st2.out.map (fun c => (c.ticker, c.date))).reverse
        ∧ (st2.out.map (fun c => (c.ticker, c.date))).Nodup)
      (fun a st2 => ∀ u : String,
        3 ≤ (distinctFamIntervals fam (tickerWindowData
            (broadWindow (famFiltered fam recs0) a) u (windowEndDay (ad.lookup u) a))).length →
          (u, maxSigDay (tickerWindowData (broadWindow (famFiltered fam recs0) a) u
            (windowEndDay (ad.lookup u) a)))
            ∈ st2.out.map (fun c => (c.ticker, c.date)))
      (fun st2 a h2 => stepDay_inv fam ad _ st2 a h2)
      (fun st2 a hp u hqa => stepDay_records fam ad _ st2 a hp u hqa)
      (fun st2 a b hQ u hqa => stepDay_keys_mono fam ad _ st2 b _ (hQ u hqa))
      (uniqueDays (famFiltered fam recs0)) ⟨[], []⟩ hinv0 d hd t hq
  · -- per-key uniqueness
    exact hInvF.2

/-- C5 counterexample: with a gappy daily index (trading days 0, 20, 40) the
precise window end for day 0 is day 40, and ticker T has 3 distinct
confirming intervals within `[0, 40]` (days 0, 12, 13), yet the 10-day broad
prefilter hides the later occurrences and no candidate is ever recorded —
the claim's uncapped window `[D, precise window end]` does not match the
code. -/
theorem resonance_window_cex :
    3 ≤ (claimWindowIntervals fam1234 cexRecs "T" 0
        (windowEndDay (cexDaily.lookup "T") 0)).length
      ∧ 0 ∈ uniqueDays (famFiltered fam1234 cexRecs)
      ∧ identifyCands fam1234 cexRecs cexDaily = [] := by
  refine ⟨?_, ?_, ?_⟩ <;> with_unfolding_all decide

/-- C5 witness: the amended characterization instantiated on a concrete
qualifying input records the expected key. -/
theorem identify_characterization_witness :
    ("T", 2) ∈ (identifyCands fam1234
        [⟨"T", "1h", 0⟩, ⟨"T", "2h", 1441⟩, ⟨"T", "3h", 2900⟩]
        [("T", [0, 1, 2, 3, 4])]).map (fun c => (c.ticker, c.date)) := by
  have h := (identify_characterization fam1234
      [⟨"T", "1h", 0⟩, ⟨"T", "2h", 1441⟩, ⟨"T", "3h", 2900⟩]
      [("T", [0, 1, 2, 3, 4])]).2.1 0 (by with_unfolding_all decide) "T"
      (by with_unfolding_all decide)
  have he : maxSigDay (codeWindowData fam1234
      [⟨"T", "1h", 0⟩, ⟨"T", "2h", 1441⟩, ⟨"T", "3h", 2900⟩]
      [("T", [0, 1, 2, 3, 4])] 0 "T") = 2 := by with_unfolding_all decide
  rw [he] at h
  exact h
